import Mathlib

/-!
Verification of the feature-matching orchestration layer of
`src/feature/matching.cc` (structure-from-motion feature matching).

The C++ source is shallowly embedded: image ids are `Nat`, the match
database is a predicate on canonical pair-ids, queues become lists, and
each matcher's control flow becomes a structurally recursive function.
-/

/-! ## Canonical pair ids and the match database -/

/-- Modelled from the spec: `Database::ImagePairToPairId` is not part of the
repository source (the database backend is an external collaborator); the spec
describes it as a canonicalized identifier derived from an unordered pair
`(a,b)` with `pair(a,b) = pair(b,a)`, injective over unordered pairs. COLMAP's
canonicalization orders the two ids and combines them with the constant
`kMaxNumImages`. -/
def kMaxNumImages : Nat := 2147483647

/-- Modelled from the spec: the canonicalizing pair-id function
`Database::ImagePairToPairId(a, b)`; symmetric in its arguments. -/
def ImagePairToPairId (a b : Nat) : Nat :=
  if b < a then b * kMaxNumImages + a else a * kMaxNumImages + b

/-- The canonical pair-id of a pair, as used for deduplication keys. -/
def pairKey (p : Nat × Nat) : Nat := ImagePairToPairId p.1 p.2

theorem ImagePairToPairId_comm (a b : Nat) :
    ImagePairToPairId a b = ImagePairToPairId b a := by
  unfold ImagePairToPairId
  rcases Nat.lt_trichotomy a b with h | h | h
  · rw [if_neg (by omega), if_pos h]
  · simp [h]
  · rw [if_pos h, if_neg (by omega)]

/-! ## Generic first-occurrence deduplication by key

`dedupByKey key l seen` keeps, in order, the elements of `l` whose key is not
in `seen` and has not occurred earlier in `l`; it is the specification-side
description of "keeping only the first occurrence of each canonical pair-id". -/

def dedupByKey (key : Nat × Nat → Nat) :
    List (Nat × Nat) → List Nat → List (Nat × Nat)
  | [], _ => []
  | p :: ps, seen =>
    if key p ∈ seen then dedupByKey key ps seen
    else p :: dedupByKey key ps (key p :: seen)

/-! ## SiftFeatureMatcher::Match

The dispatch loop of `SiftFeatureMatcher::Match` (matching.cc:351-422).
`db pid` models `cache_->ExistsMatches` for the pair with canonical id `pid`
(the spec: the database holds at most one match record per unordered pair, so
existence is a function of the pair-id). The loop state carries the
`image_pair_ids` set; the fold returns the `ExistsMatches` queries issued, the
jobs pushed to `matcher_queue_`, and the `num_outputs` counter. -/

def matchLoop (db : Nat → Bool) :
    List (Nat × Nat) → List Nat → List (Nat × Nat) × List (Nat × Nat) × Nat
  | [], _ => ([], [], 0)
  | p :: ps, seen =>
    if p.1 = p.2 then
      -- Avoid self-matches.
      matchLoop db ps seen
    else
      if pairKey p ∈ seen then
        -- Avoid duplicate image pairs.
        matchLoop db ps seen
      else
        let rest := matchLoop db ps (pairKey p :: seen)
        if db (pairKey p) then (p :: rest.1, rest.2.1, rest.2.2)
        else (p :: rest.1, p :: rest.2.1, rest.2.2 + 1)

/-- The minimum-match-count normalization applied both by the worker loops and
defensively by `Match` before each write (matching.cc:196-198, 253-255,
414-416). -/
def normalizeMatches (minM : Nat) (m : List (Nat × Nat)) : List (Nat × Nat) :=
  if m.length < minM then [] else m

/-- The externally observable effects of one `SiftFeatureMatcher::Match` call:
`ExistsMatches` queries issued, jobs pushed to the input queue, the
`num_outputs` counter, the number of results popped from the output queue, and
the `WriteMatches` writes performed. -/
structure MatchEffects where
  queries : List (Nat × Nat)
  jobs : List (Nat × Nat)
  numOutputs : Nat
  popped : Nat
  writes : List (Nat × Nat × List (Nat × Nat))
  deriving DecidableEq, Repr

/-- `SiftFeatureMatcher::Match` (matching.cc:351-422). `outs` is the stream of
results the workers deliver on the output queue (one per job, in arbitrary
completion order); the write loop pops exactly `num_outputs` of them,
re-applies the threshold, and writes each result. An empty input list returns
immediately. -/
def SiftFeatureMatcher_Match (minM : Nat) (db : Nat → Bool)
    (pairs : List (Nat × Nat)) (outs : List (Nat × Nat × List (Nat × Nat))) :
    MatchEffects :=
  if pairs.isEmpty then ⟨[], [], 0, 0, []⟩
  else
    let r := matchLoop db pairs []
    { queries := r.1
      jobs := r.2.1
      numOutputs := r.2.2
      popped := r.2.2
      writes := (outs.take r.2.2).map fun o => (o.1, o.2.1, normalizeMatches minM o.2.2) }

/-- One iteration of the `SiftCPUFeatureMatcher::Run` worker body
(matching.cc:186-201): fetch both descriptors, run the kernel, normalize below
the threshold, push the result. `kernel id1 id2` stands for
`MatchSiftFeaturesCPU` on the two cached descriptor sets. -/
def siftCPUProcessJob (minM : Nat) (kernel : Nat → Nat → List (Nat × Nat))
    (job : Nat × Nat) : Nat × Nat × List (Nat × Nat) :=
  (job.1, job.2, normalizeMatches minM (kernel job.1 job.2))

/-- The worker pool's production on the output queue during one `Match` call:
each valid input job yields exactly one output push (the worker loop pushes
once per popped valid job). -/
def workerProduce (minM : Nat) (kernel : Nat → Nat → List (Nat × Nat))
    (jobs : List (Nat × Nat)) : List (Nat × Nat × List (Nat × Nat)) :=
  jobs.map (siftCPUProcessJob minM kernel)

/-- Output-queue size when `Match` returns, given its size at entry, the
number of results the workers produced for this call, and the number of
results the write loop popped. -/
def outputQueueSizeOnReturn (initialSize produced popped : Nat) : Nat :=
  initialSize + produced - popped

/-! ## Lemmas about the Match dispatch loop -/

/-- The jobs pushed by the dispatch loop are the input pairs that are not
self-pairs and have no matches in the database, deduplicated by pair-id: the
loop's seen-set and the specification's seen-set may differ only on pair-ids
whose matches already exist, and such pairs are filtered out on both sides. -/
theorem matchLoop_jobs_eq (db : Nat → Bool) :
    ∀ (l : List (Nat × Nat)) (seenC seenS : List Nat),
      (∀ pid, db pid = false → (pid ∈ seenC ↔ pid ∈ seenS)) →
      (matchLoop db l seenC).2.1 =
        dedupByKey pairKey
          (l.filter fun p => decide (p.1 ≠ p.2) && !db (pairKey p)) seenS := by
  intro l
  induction l with
  | nil => intro seenC seenS _; simp [matchLoop, dedupByKey]
  | cons p ps ih =>
    intro seenC seenS h
    by_cases hself : p.1 = p.2
    · simp only [matchLoop, if_pos hself, List.filter_cons,
        decide_eq_true_eq, hself]
      simpa using ih seenC seenS h
    · by_cases hseen : pairKey p ∈ seenC
      · by_cases hdb : db (pairKey p)
        · simp only [matchLoop, if_neg hself, if_pos hseen, List.filter_cons, hdb]
          simpa [hself] using ih seenC seenS h
        · have hS : pairKey p ∈ seenS := (h (pairKey p) (by simpa using hdb)).1 hseen
          simp only [matchLoop, if_neg hself, if_pos hseen, List.filter_cons]
          rw [ih seenC seenS h]
          simp [dedupByKey, hself, hdb, hS]
      · by_cases hdb : db (pairKey p)
        · simp only [matchLoop, if_neg hself, if_neg hseen, List.filter_cons, hdb, if_pos]
          have h' : ∀ pid, db pid = false →
              (pid ∈ pairKey p :: seenC ↔ pid ∈ seenS) := by
            intro pid hpid
            constructor
            · intro hmem
              rcases List.mem_cons.1 hmem with rfl | hmem
              · rw [hpid] at hdb; exact absurd hdb (by simp)
              · exact (h pid hpid).1 hmem
            · intro hmem
              exact List.mem_cons_of_mem _ ((h pid hpid).2 hmem)
          simpa [hself] using ih (pairKey p :: seenC) seenS h'
        · have hS : pairKey p ∉ seenS := fun hc =>
            hseen ((h (pairKey p) (by simpa using hdb)).2 hc)
          simp only [matchLoop, if_neg hself, if_neg hseen, List.filter_cons, hdb]
          have h' : ∀ pid, db pid = false →
              (pid ∈ pairKey p :: seenC ↔ pid ∈ pairKey p :: seenS) := by
            intro pid hpid
            simp only [List.mem_cons]
            exact or_congr Iff.rfl (h pid hpid)
          rw [ih (pairKey p :: seenC) (pairKey p :: seenS) h']
          simp [dedupByKey, hself, hS]

/-- The `num_outputs` counter equals the number of jobs pushed: the loop
increments it exactly when it pushes. -/
theorem matchLoop_numOutputs (db : Nat → Bool) :
    ∀ (l : List (Nat × Nat)) (seen : List Nat),
      (matchLoop db l seen).2.2 = (matchLoop db l seen).2.1.length := by
  intro l
  induction l with
  | nil => intro seen; simp [matchLoop]
  | cons p ps ih =>
    intro seen
    by_cases hself : p.1 = p.2
    · simp [matchLoop, hself, ih]
    · by_cases hseen : pairKey p ∈ seen
      · simp [matchLoop, hself, hseen, ih]
      · by_cases hdb : db (pairKey p) <;>
          simp [matchLoop, hself, hseen, hdb, ih]

/-! ## Claims about SiftFeatureMatcher::Match -/

/-- C1: for every call to `SiftFeatureMatcher::Match` with input pair list
`pairs`, the sequence of jobs pushed to the input queue is exactly the pairs
`(a,b)` of `pairs` with `a ≠ b` and with no matches already in the database,
keeping only the first occurrence of each canonical pair-id; all other input
pairs are skipped without enqueueing. -/
theorem SiftFeatureMatcher_Match_pair_dedup (minM : Nat) (db : Nat → Bool)
    (pairs : List (Nat × Nat)) (outs : List (Nat × Nat × List (Nat × Nat))) :
    (SiftFeatureMatcher_Match minM db pairs outs).jobs =
      dedupByKey pairKey
        (pairs.filter fun p => decide (p.1 ≠ p.2) && !db (pairKey p)) [] := by
  unfold SiftFeatureMatcher_Match
  by_cases hp : pairs.isEmpty
  · rw [if_pos hp]
    rw [List.isEmpty_iff] at hp
    subst hp
    simp [dedupByKey]
  · rw [if_neg hp]
    exact matchLoop_jobs_eq db pairs [] [] (by simp)

/-- C2: for every call to `SiftFeatureMatcher::Match`, the number of results
popped from the output queue equals the number of jobs pushed to the input
queue during that call (both equal the `num_outputs` counter), and with the
output queue empty at entry and one worker result per job, the output queue
size is zero when `Match` returns. -/
theorem SiftFeatureMatcher_Match_result_accounting (minM : Nat)
    (db : Nat → Bool) (kernel : Nat → Nat → List (Nat × Nat))
    (pairs : List (Nat × Nat)) (outs : List (Nat × Nat × List (Nat × Nat))) :
    (SiftFeatureMatcher_Match minM db pairs outs).popped =
        (SiftFeatureMatcher_Match minM db pairs outs).jobs.length
      ∧ (SiftFeatureMatcher_Match minM db pairs outs).popped =
        (SiftFeatureMatcher_Match minM db pairs outs).numOutputs
      ∧ outputQueueSizeOnReturn 0
          (workerProduce minM kernel
            (SiftFeatureMatcher_Match minM db pairs outs).jobs).length
          (SiftFeatureMatcher_Match minM db pairs outs).popped = 0 := by
  have hlen : (SiftFeatureMatcher_Match minM db pairs outs).popped =
      (SiftFeatureMatcher_Match minM db pairs outs).jobs.length := by
    unfold SiftFeatureMatcher_Match
    by_cases hp : pairs.isEmpty
    · simp [hp]
    · simp only [if_neg hp]
      exact matchLoop_numOutputs db pairs []
  refine ⟨hlen, ?_, ?_⟩
  · unfold SiftFeatureMatcher_Match
    by_cases hp : pairs.isEmpty <;> simp [hp]
  · rw [hlen]
    unfold outputQueueSizeOnReturn workerProduce
    simp

/-- C5: every match set written to the database by `SiftFeatureMatcher::Match`
is either empty or of size at least `min_num_matches` (results below the
threshold are normalized to an empty match set before being written, and the
empty set is still written), and the same holds for every result a CPU worker
pushes on the output queue. -/
theorem SiftFeatureMatcher_Match_threshold (minM : Nat) (db : Nat → Bool)
    (kernel : Nat → Nat → List (Nat × Nat)) (pairs : List (Nat × Nat))
    (outs : List (Nat × Nat × List (Nat × Nat))) (job : Nat × Nat) :
    (∀ w ∈ (SiftFeatureMatcher_Match minM db pairs outs).writes,
        w.2.2.length = 0 ∨ minM ≤ w.2.2.length)
      ∧ ((siftCPUProcessJob minM kernel job).2.2.length = 0 ∨
          minM ≤ (siftCPUProcessJob minM kernel job).2.2.length) := by
  have hnorm : ∀ m : List (Nat × Nat),
      (normalizeMatches minM m).length = 0 ∨ minM ≤ (normalizeMatches minM m).length := by
    intro m
    unfold normalizeMatches
    by_cases hm : m.length < minM
    · left; simp [hm]
    · right; simpa [hm] using Nat.le_of_not_lt hm
  constructor
  · intro w hw
    unfold SiftFeatureMatcher_Match at hw
    by_cases hp : pairs.isEmpty
    · simp [hp] at hw
    · simp only [if_neg hp, List.mem_map] at hw
      obtain ⟨o, _, rfl⟩ := hw
      exact hnorm o.2.2
  · exact hnorm (kernel job.1 job.2)

/-- C10: `SiftFeatureMatcher::Match` called with an empty pair list returns
immediately: no job is pushed, no result is popped, and no database read
(`ExistsMatches`) or write (`WriteMatches`) is performed. -/
theorem SiftFeatureMatcher_Match_empty_noop (minM : Nat) (db : Nat → Bool)
    (outs : List (Nat × Nat × List (Nat × Nat))) :
    SiftFeatureMatcher_Match minM db [] outs = ⟨[], [], 0, 0, []⟩ := rfl

/-! ## SequentialFeatureMatcher

`SequentialFeatureMatcher::RunSequentialMatching` (matching.cc:551-592), at
the level of positions in the name-ordered image list: for the image at
position `idx1`, the inner loop runs `i = 0, 1, ...` up to `overlap - 1`,
emits `(idx1, idx1 + i)` while `idx1 + i < N` (breaking at the first `i` that
falls outside), and when `quadratic_overlap` is set additionally emits
`(idx1, idx1 + 2^i)` when in range. -/

def seqLoop (N idx1 : Nat) (quadratic : Bool) : Nat → Nat → List (Nat × Nat)
  | 0, _ => []
  | fuel + 1, i =>
    if idx1 + i < N then
      ((idx1, idx1 + i) ::
          (if quadratic ∧ idx1 + 2 ^ i < N then [(idx1, idx1 + 2 ^ i)] else [])) ++
        seqLoop N idx1 quadratic fuel (i + 1)
    else []

/-- The pairs emitted from position `idx1` by one iteration of
`RunSequentialMatching`'s outer loop, before `Match`-level deduplication. -/
def sequentialPairsFrom (N overlap : Nat) (quadratic : Bool) (idx1 : Nat) :
    List (Nat × Nat) :=
  seqLoop N idx1 quadratic overlap 0

/-- The pair set the claim asserts for position `i`:
`{(i, i+k) : 1 ≤ k ≤ overlap, i+k < N}` plus, when `quadratic_overlap` is set,
`{(i, i+2^k) : 0 ≤ k < overlap, i+2^k < N}`. -/
def seqClaimedPairs (N overlap : Nat) (quadratic : Bool) (i : Nat) :
    List (Nat × Nat) :=
  (((List.range overlap).map fun k => (i, i + (k + 1))).filter fun p => p.2 < N) ++
    (if quadratic then
      (((List.range overlap).map fun k => (i, i + 2 ^ k)).filter fun p => p.2 < N)
    else [])

/-- The linear offsets the code actually traverses start at `0`, not `1`: a
pair `(idx1, idx1 + i)` is emitted for each `i < overlap` with
`idx1 + i < N`, and the break at the first out-of-range `i` hides nothing,
since `i ≤ 2^i` keeps all later linear and quadratic candidates out of range
as well. -/
theorem seqLoop_mem (N idx1 : Nat) (quadratic : Bool) :
    ∀ (fuel i0 : Nat) (p : Nat × Nat),
      p ∈ seqLoop N idx1 quadratic fuel i0 ↔
        ((∃ i, i0 ≤ i ∧ i < i0 + fuel ∧ idx1 + i < N ∧ p = (idx1, idx1 + i)) ∨
          (quadratic = true ∧
            ∃ i, i0 ≤ i ∧ i < i0 + fuel ∧ idx1 + 2 ^ i < N ∧ p = (idx1, idx1 + 2 ^ i))) := by
  intro fuel
  induction fuel with
  | zero =>
    intro i0 p
    simp only [seqLoop, List.not_mem_nil, false_iff]
    push_neg
    constructor
    · intro i h1 h2; omega
    · intro _; intro i h1 h2; omega
  | succ fuel ih =>
    intro i0 p
    by_cases hin : idx1 + i0 < N
    · simp only [seqLoop, if_pos hin, List.mem_append, List.mem_cons]
      constructor
      · intro h
        rcases h with (rfl | hq) | hrest
        · exact Or.inl ⟨i0, le_refl _, by omega, hin, rfl⟩
        · by_cases hq' : quadratic = true ∧ idx1 + 2 ^ i0 < N
          · rw [if_pos hq'] at hq
            simp only [List.mem_singleton] at hq
            subst hq
            exact Or.inr ⟨hq'.1, i0, le_refl _, by omega, hq'.2, rfl⟩
          · rw [if_neg hq'] at hq
            simp at hq
        · rcases (ih (i0 + 1) p).1 hrest with ⟨i, h1, h2, h3, h4⟩ | ⟨hq, i, h1, h2, h3, h4⟩
          · exact Or.inl ⟨i, by omega, by omega, h3, h4⟩
          · exact Or.inr ⟨hq, i, by omega, by omega, h3, h4⟩
      · intro h
        rcases h with ⟨i, h1, h2, h3, h4⟩ | ⟨hq, i, h1, h2, h3, h4⟩
        · rcases Nat.eq_or_lt_of_le h1 with rfl | hgt
          · exact Or.inl (Or.inl h4)
          · exact Or.inr ((ih (i0 + 1) p).2 (Or.inl ⟨i, by omega, by omega, h3, h4⟩))
        · rcases Nat.eq_or_lt_of_le h1 with rfl | hgt
          · refine Or.inl (Or.inr ?_)
            rw [if_pos ⟨hq, h3⟩]
            simp [h4]
          · exact Or.inr ((ih (i0 + 1) p).2 (Or.inr ⟨hq, i, by omega, by omega, h3, h4⟩))
    · simp only [seqLoop, if_neg hin, List.not_mem_nil, false_iff]
      push_neg
      have hpow : ∀ i : Nat, i0 ≤ i → ¬ idx1 + 2 ^ i < N := by
        intro i hle
        have : i < 2 ^ i := Nat.lt_two_pow i
        omega
      constructor
      · intro i h1 h2; omega
      · intro _; intro i h1 h2 h3
        exact absurd h3 (by simpa using hpow i h1)

/-- C3 counterexample: with `N = 2` images, `overlap = 1` and no quadratic
overlap, the code emits the self-pair `(0, 0)` from position `0` (its inner
loop starts at offset `i = 0`, not `1`), which is not in the claimed set
`{(0, 0+k) : 1 ≤ k ≤ 1, 0+k < 2} = {(0,1)}`; so the emitted pairs are not the
claimed set. -/
theorem sequentialPairsFrom_counterexample :
    (0, 0) ∈ sequentialPairsFrom 2 1 false 0 ∧
      (0, 0) ∉ seqClaimedPairs 2 1 false 0 ∧
      (0, 1) ∈ seqClaimedPairs 2 1 false 0 ∧
      (0, 1) ∉ sequentialPairsFrom 2 1 false 0 := by decide

/-- C3 (amended): for every image position `i`, the pairs emitted from `i`
before `Match`-level deduplication are exactly
`{(i, i+k) : 0 ≤ k < overlap, i+k < N}` — the linear offsets start at `0`
(the self-pair `(i,i)`) and stop before `overlap` — plus, when
`quadratic_overlap` is set, `{(i, i+2^k) : 0 ≤ k < overlap, i+2^k < N}`. -/
theorem sequentialPairsFrom_coverage (N overlap : Nat) (quadratic : Bool)
    (i : Nat) (p : Nat × Nat) :
    p ∈ sequentialPairsFrom N overlap quadratic i ↔
      ((∃ k, k < overlap ∧ i + k < N ∧ p = (i, i + k)) ∨
        (quadratic = true ∧ ∃ k, k < overlap ∧ i + 2 ^ k < N ∧ p = (i, i + 2 ^ k))) := by
  unfold sequentialPairsFrom
  rw [seqLoop_mem]
  constructor
  · rintro (⟨k, _, h2, h3, h4⟩ | ⟨hq, k, _, h2, h3, h4⟩)
    · exact Or.inl ⟨k, by omega, h3, h4⟩
    · exact Or.inr ⟨hq, k, by omega, h3, h4⟩
  · rintro (⟨k, h1, h2, h3⟩ | ⟨hq, k, h1, h2, h3⟩)
    · exact Or.inl ⟨k, Nat.zero_le _, by omega, h2, h3⟩
    · exact Or.inr ⟨hq, k, Nat.zero_le _, by omega, h2, h3⟩

/-! ## SiftGPUFeatureMatcher::GetDescriptorData

The GPU worker's per-operand descriptor-reuse elision (matching.cc:262-274).
The worker state holds, for each operand slot, the image id whose descriptors
are resident on the device (`prev_uploaded_image_ids_`) and the host copy of
the descriptors last uploaded (`prev_uploaded_descriptors_`). `cache` models
`cache_->GetDescriptors`. The result is the descriptor pointer passed to the
kernel (`none` = null, meaning reuse resident data), the updated worker state,
and whether the cache was queried. -/

structure GpuWorkerState where
  prevId0 : Nat
  prevId1 : Nat
  prevDesc0 : List Nat
  prevDesc1 : List Nat
  deriving DecidableEq, Repr

/-- The image id recorded for operand slot `i`. -/
def slotId (s : GpuWorkerState) (i : Fin 2) : Nat :=
  if i = 0 then s.prevId0 else s.prevId1

/-- `SiftGPUFeatureMatcher::GetDescriptorData(index, image_id, ptr)`
(matching.cc:262-274). -/
def GetDescriptorData (cache : Nat → List Nat) (s : GpuWorkerState)
    (i : Fin 2) (imageId : Nat) :
    Option (List Nat) × GpuWorkerState × Bool :=
  if slotId s i = imageId then (none, s, false)
  else
    let d := cache imageId
    let s' :=
      if i = 0 then { s with prevId0 := imageId, prevDesc0 := d }
      else { s with prevId1 := imageId, prevDesc1 := d }
    (some d, s', true)

/-- C6: in `SiftGPUFeatureMatcher::GetDescriptorData`, for each operand slot:
if the requested image id equals the id recorded for that slot, the returned
descriptor pointer is null and the cache is not queried (and the state is
unchanged); otherwise the descriptors are fetched from the cache, a non-null
pointer to them is returned, and the slot id is updated to the requested
image id; the other slot is never touched. -/
theorem SiftGPUFeatureMatcher_GetDescriptorData_spec (cache : Nat → List Nat)
    (s : GpuWorkerState) (i : Fin 2) (imageId : Nat) :
    (GetDescriptorData cache s i imageId).1 =
        (if slotId s i = imageId then none else some (cache imageId))
      ∧ (GetDescriptorData cache s i imageId).2.2 =
        (if slotId s i = imageId then false else true)
      ∧ slotId (GetDescriptorData cache s i imageId).2.1 i = imageId
      ∧ (GetDescriptorData cache s i imageId).2.1 =
        (if slotId s i = imageId then s
          else if i = 0 then
            { s with prevId0 := imageId, prevDesc0 := cache imageId }
          else { s with prevId1 := imageId, prevDesc1 := cache imageId })
      ∧ (∀ j : Fin 2, j ≠ i →
          slotId (GetDescriptorData cache s i imageId).2.1 j = slotId s j) := by
  unfold GetDescriptorData
  by_cases h : slotId s i = imageId
  · refine ⟨by simp [h], by simp [h], by simp [h], by simp [h], ?_⟩
    intro j _
    simp [h]
  · refine ⟨by simp [h], by simp [h], ?_, by simp [h], ?_⟩
    · fin_cases i <;> simp [slotId] at h <;> simp [h, slotId]
    · intro j hj
      fin_cases i <;> fin_cases j <;>
        simp [slotId] at h hj ⊢ <;> simp [h]

/-! ## SpatialFeatureMatcher

The per-query emission loop of `SpatialFeatureMatcher::Run`
(matching.cc:752-768). For query location `q`, `idxRow j` is
`index_matrix(q, j)` (the `j`-th nearest neighbor's location index) and
`distRow j` is `distance_matrix(q, j)` (its squared distance, sorted
ascending by the k-NN search); `maxSq` is `max_distance * max_distance`.
A neighbor equal to the query is skipped (`continue`); the first neighbor
with squared distance above `maxSq` stops the loop (`break`); all others are
emitted as `(q, idxRow j)`. -/

def spatialLoop (q : Nat) (idxRow : Nat → Nat) (distRow : Nat → Int)
    (maxSq : Int) : Nat → Nat → List (Nat × Nat)
  | 0, _ => []
  | fuel + 1, j =>
    if idxRow j = q then spatialLoop q idxRow distRow maxSq fuel (j + 1)
    else if maxSq < distRow j then []
    else (q, idxRow j) :: spatialLoop q idxRow distRow maxSq fuel (j + 1)

/-- The neighbor pairs emitted for query location `q` over its `knn` nearest
neighbors. -/
def spatialPairsFrom (q knn : Nat) (idxRow : Nat → Nat) (distRow : Nat → Int)
    (maxSq : Int) : List (Nat × Nat) :=
  spatialLoop q idxRow distRow maxSq knn 0

/-- The emission loop, started at neighbor rank `j` with `fuel` ranks left,
equals: drop the self-neighbors, take while the squared distance is within
range, and pair each survivor with the query. -/
theorem spatialLoop_eq (q : Nat) (idxRow : Nat → Nat) (distRow : Nat → Int)
    (maxSq : Int) :
    ∀ (fuel j : Nat),
      spatialLoop q idxRow distRow maxSq fuel j =
        ((((List.range' j fuel).filter fun x => decide (idxRow x ≠ q)).takeWhile
            fun x => decide (distRow x ≤ maxSq)).map fun x => (q, idxRow x)) := by
  intro fuel
  induction fuel with
  | zero => intro j; simp [spatialLoop]
  | succ fuel ih =>
    intro j
    rw [List.range'_succ]
    by_cases hself : idxRow j = q
    · simp only [spatialLoop, if_pos hself, List.filter_cons]
      rw [ih (j + 1)]
      simp [hself]
    · by_cases hdist : maxSq < distRow j
      · simp only [spatialLoop, if_neg hself, if_pos hdist, List.filter_cons]
        have : ¬ distRow j ≤ maxSq := not_le.2 hdist
        simp [hself, this]
      · simp only [spatialLoop, if_neg hself, if_neg hdist, List.filter_cons]
        rw [ih (j + 1)]
        have : distRow j ≤ maxSq := le_of_not_lt hdist
        simp [hself, this]

/-- C7: for every query location `q`, the emitted neighbor pairs all pair `q`
with one of its `knn` nearest neighbors, exclude self-pairs, and satisfy
`distance² ≤ max_distance²`; and the emitted list is exactly the self-free
neighbors of `q`'s (distance-sorted) neighbor list taken while the squared
distance stays within range — iteration stops at the first neighbor whose
squared distance exceeds the bound, while a neighbor equal to the query is
skipped and iteration continues. -/
theorem SpatialFeatureMatcher_emitted_spec (q knn : Nat) (idxRow : Nat → Nat)
    (distRow : Nat → Int) (maxSq : Int) :
    (spatialPairsFrom q knn idxRow distRow maxSq =
        ((((List.range knn).filter fun x => decide (idxRow x ≠ q)).takeWhile
            fun x => decide (distRow x ≤ maxSq)).map fun x => (q, idxRow x)))
      ∧ (∀ p ∈ spatialPairsFrom q knn idxRow distRow maxSq,
          p.1 = q ∧ p.2 ≠ q ∧
            ∃ j, j < knn ∧ p.2 = idxRow j ∧ distRow j ≤ maxSq) := by
  have heq := spatialLoop_eq q idxRow distRow maxSq knn 0
  rw [List.range_eq_range']
  refine ⟨heq, ?_⟩
  intro p hp
  rw [spatialPairsFrom, heq] at hp
  simp only [List.mem_map] at hp
  obtain ⟨x, hx, rfl⟩ := hp
  have hx' := List.mem_takeWhile_imp hx
  have hxf : x ∈ (List.range' 0 knn).filter fun x => decide (idxRow x ≠ q) :=
    List.takeWhile_subset _ hx
  simp only [List.mem_filter, decide_eq_true_eq] at hxf
  obtain ⟨hxr, hxq⟩ := hxf
  simp only [decide_eq_true_eq] at hx'
  refine ⟨rfl, hxq, x, ?_, rfl, hx'⟩
  have := List.mem_range'_1.1 hxr
  omega

/-! ## ExhaustiveFeatureMatcher

`ExhaustiveFeatureMatcher::Run` (matching.cc:436-498): two nested loops over
block start indices stepping by `block_size`, and inside each block iteration
a double loop over global indices `idx1 ∈ [start1, min(N, start1+B))`,
`idx2 ∈ [start2, min(N, start2+B))` emitting `(idx1, idx2)` under the
anti-duplication predicate on block-local ids `idx % B`. -/

/-- The anti-duplication predicate of matching.cc:480-484:
emit iff `(idx1 > idx2 and block_id1 <= block_id2) or
(idx1 < idx2 and block_id1 < block_id2)` with `block_id = idx % block_size`. -/
def emitInBlock (B idx1 idx2 : Nat) : Bool :=
  (decide (idx2 < idx1) && decide (idx1 % B ≤ idx2 % B)) ||
    (decide (idx1 < idx2) && decide (idx1 % B < idx2 % B))

theorem emitInBlock_iff (B a b : Nat) :
    emitInBlock B a b = true ↔
      ((b < a ∧ a % B ≤ b % B) ∨ (a < b ∧ a % B < b % B)) := by
  simp [emitInBlock]

/-- The global indices visited by one block: `[s, min(N, s + B))`
(the code's `idx ∈ [start_idx, end_idx]` with
`end_idx = min(N, start_idx + B) - 1`). -/
def blockRange (N s B : Nat) : List Nat := List.range' s (min N (s + B) - s)

/-- The pairs emitted in the block iteration with start indices
`(s1, s2)` (matching.cc:477-488). -/
def blockPairs (N B s1 s2 : Nat) : List (Nat × Nat) :=
  (blockRange N s1 B).flatMap fun i1 =>
    (blockRange N s2 B).filterMap fun i2 =>
      if emitInBlock B i1 i2 then some (i1, i2) else none

/-- The number of blocks, `ceil(N / B)` (matching.cc:448-449). -/
def numBlocks (N B : Nat) : Nat := (N + B - 1) / B

/-- The block start indices `0, B, 2B, ...` visited by the outer loops
(`start_idx < N`, step `B`). -/
def blockStarts (N B : Nat) : List Nat :=
  (List.range (numBlocks N B)).map fun k => k * B

/-- All pairs emitted across all block iterations of
`ExhaustiveFeatureMatcher::Run`, in iteration order. -/
def exhaustivePairs (N B : Nat) : List (Nat × Nat) :=
  (blockStarts N B).flatMap fun s1 =>
    (blockStarts N B).flatMap fun s2 => blockPairs N B s1 s2

theorem mem_blockRange {N s B x : Nat} :
    x ∈ blockRange N s B ↔ s ≤ x ∧ x < N ∧ x < s + B := by
  unfold blockRange
  rw [List.mem_range'_1]
  omega

theorem mem_blockPairs {N B s1 s2 a b : Nat} :
    (a, b) ∈ blockPairs N B s1 s2 ↔
      a ∈ blockRange N s1 B ∧ b ∈ blockRange N s2 B ∧ emitInBlock B a b = true := by
  unfold blockPairs
  simp only [List.mem_flatMap, List.mem_filterMap]
  constructor
  · rintro ⟨i1, h1, i2, h2, heq⟩
    by_cases he : emitInBlock B i1 i2
    · rw [if_pos he, Option.some.injEq, Prod.mk.injEq] at heq
      obtain ⟨rfl, rfl⟩ := heq
      exact ⟨h1, h2, he⟩
    · rw [if_neg he] at heq
      exact absurd heq (Option.noConfusion)
  · rintro ⟨ha, hb, he⟩
    exact ⟨a, ha, b, hb, by rw [if_pos he]⟩

theorem lt_numBlocks_iff {N B k : Nat} (hB : 0 < B) :
    k < numBlocks N B ↔ k * B < N := by
  unfold numBlocks
  constructor
  · intro h
    have h1 : (k + 1) * B ≤ N + B - 1 :=
      (Nat.le_div_iff_mul_le hB).1 (Nat.succ_le_of_lt h)
    rw [Nat.succ_mul] at h1
    omega
  · intro h
    refine Nat.lt_of_succ_le ((Nat.le_div_iff_mul_le hB).2 ?_)
    rw [Nat.succ_mul]
    omega

theorem mem_blockStarts {N B s : Nat} (hB : 0 < B) :
    s ∈ blockStarts N B ↔ (∃ k, s = k * B) ∧ s < N := by
  unfold blockStarts
  simp only [List.mem_map, List.mem_range]
  constructor
  · rintro ⟨k, hk, rfl⟩
    exact ⟨⟨k, rfl⟩, (lt_numBlocks_iff hB).1 hk⟩
  · rintro ⟨⟨k, rfl⟩, hs⟩
    exact ⟨k, (lt_numBlocks_iff hB).2 hs, rfl⟩

/-- A global index lies in the interval of exactly one block. -/
theorem block_interval_unique {B k k' x : Nat}
    (h1 : k * B ≤ x) (h2 : x < k * B + B)
    (h1' : k' * B ≤ x) (h2' : x < k' * B + B) : k = k' := by
  by_contra hne
  rcases Nat.lt_or_ge k k' with h | h
  · have hle : (k + 1) * B ≤ k' * B := Nat.mul_le_mul_right B (by omega)
    rw [Nat.succ_mul] at hle
    omega
  · have hk : k' < k := by omega
    have hle : (k' + 1) * B ≤ k * B := Nat.mul_le_mul_right B (by omega)
    rw [Nat.succ_mul] at hle
    omega

theorem mem_exhaustivePairs {N B a b : Nat} (hB : 0 < B) :
    (a, b) ∈ exhaustivePairs N B ↔ a < N ∧ b < N ∧ emitInBlock B a b = true := by
  unfold exhaustivePairs
  simp only [List.mem_flatMap]
  constructor
  · rintro ⟨s1, hs1, s2, hs2, hp⟩
    rw [mem_blockPairs] at hp
    obtain ⟨ha, hb, he⟩ := hp
    rw [mem_blockRange] at ha hb
    exact ⟨ha.2.1, hb.2.1, he⟩
  · rintro ⟨ha, hb, he⟩
    have hdm : ∀ x : Nat, x / B * B ≤ x ∧ x < x / B * B + B := by
      intro x
      have h1 := Nat.div_add_mod x B
      have h2 : x % B < B := Nat.mod_lt x hB
      rw [Nat.mul_comm] at h1
      omega
    refine ⟨a / B * B, ?_, b / B * B, ?_, ?_⟩
    · exact (mem_blockStarts hB).2 ⟨⟨a / B, rfl⟩, by have := (hdm a).1; omega⟩
    · exact (mem_blockStarts hB).2 ⟨⟨b / B, rfl⟩, by have := (hdm b).1; omega⟩
    · rw [mem_blockPairs, mem_blockRange, mem_blockRange]
      exact ⟨⟨(hdm a).1, ha, (hdm a).2⟩, ⟨(hdm b).1, hb, (hdm b).2⟩, he⟩

theorem nodup_blockPairs {N B s1 s2 : Nat} : (blockPairs N B s1 s2).Nodup := by
  unfold blockPairs
  rw [List.nodup_flatMap]
  constructor
  · intro i1 _
    refine List.Nodup.filterMap ?_ ?_
    · intro a a' p hp hp'
      by_cases he : emitInBlock B i1 a
      · rw [if_pos he, Option.mem_def, Option.some.injEq] at hp
        by_cases he' : emitInBlock B i1 a'
        · rw [if_pos he', Option.mem_def, Option.some.injEq] at hp'
          rw [← hp'] at hp
          exact (Prod.ext_iff.1 hp).2
        · rw [if_neg he'] at hp'
          exact absurd hp' (by simp)
      · rw [if_neg he] at hp
        exact absurd hp (by simp)
    · unfold blockRange; exact List.nodup_range' _ _
  · have hr : (blockRange N s1 B).Nodup := by
      unfold blockRange; exact List.nodup_range' _ _
    refine hr.imp ?_
    intro i1 i1' hne
    intro x hx hx'
    simp only [List.mem_filterMap] at hx hx'
    obtain ⟨i2, _, hfx⟩ := hx
    obtain ⟨i2', _, hfx'⟩ := hx'
    by_cases he : emitInBlock B i1 i2
    · rw [if_pos he, Option.some.injEq] at hfx
      by_cases he' : emitInBlock B i1' i2'
      · rw [if_pos he', Option.some.injEq] at hfx'
        apply hne
        have : (i1, i2) = (i1', i2') := by rw [hfx, hfx']
        exact (Prod.ext_iff.1 this).1
      · rw [if_neg he'] at hfx'
        exact absurd hfx' (by simp)
    · rw [if_neg he] at hfx
      exact absurd hfx (by simp)

/-- Every pair of a block iteration with start `s` has its first component in
the interval `[s, s + B)`, and its second in the second start's interval. -/
theorem blockPairs_bounds {N B s1 s2 : Nat} {p : Nat × Nat}
    (hp : p ∈ blockPairs N B s1 s2) :
    s1 ≤ p.1 ∧ p.1 < s1 + B ∧ s2 ≤ p.2 ∧ p.2 < s2 + B := by
  obtain ⟨a, b⟩ := p
  rw [mem_blockPairs] at hp
  obtain ⟨ha, hb, _⟩ := hp
  rw [mem_blockRange] at ha hb
  exact ⟨ha.1, ha.2.2, hb.1, hb.2.2⟩

theorem nodup_exhaustivePairs {N B : Nat} : (exhaustivePairs N B).Nodup := by
  unfold exhaustivePairs
  rw [List.nodup_flatMap]
  constructor
  · intro s1 _
    rw [List.nodup_flatMap]
    refine ⟨fun s2 _ => nodup_blockPairs, ?_⟩
    unfold blockStarts
    rw [List.pairwise_map]
    refine (List.pairwise_lt_range _).imp ?_
    intro k k' hlt x hx hx'
    have h1 := blockPairs_bounds hx
    have h2 := blockPairs_bounds hx'
    exact absurd (block_interval_unique h1.2.2.1 h1.2.2.2 h2.2.2.1 h2.2.2.2) (by omega)
  · unfold blockStarts
    rw [List.pairwise_map]
    refine (List.pairwise_lt_range _).imp ?_
    intro k k' hlt x hx hx'
    simp only [List.mem_flatMap] at hx hx'
    obtain ⟨s2, _, hx⟩ := hx
    obtain ⟨s2', _, hx'⟩ := hx'
    have h1 := blockPairs_bounds hx
    have h2 := blockPairs_bounds hx'
    exact absurd (block_interval_unique h1.1 h1.2.1 h2.1 h2.2.1) (by omega)

/-- A pair occurring in a duplicate-free list of pairs is counted once. -/
theorem count_pair_of_nodup :
    ∀ {l : List (Nat × Nat)} {p : Nat × Nat}, l.Nodup → p ∈ l → l.count p = 1 := by
  intro l
  induction l with
  | nil => intro p _ h; simp at h
  | cons q l ih =>
    intro p hn hm
    rw [List.count_cons]
    rcases List.mem_cons.1 hm with rfl | hm'
    · have h0 : l.count p = 0 := List.count_eq_zero.2 (List.nodup_cons.1 hn).1
      simp [h0]
    · have hq : q ≠ p := by rintro rfl; exact (List.nodup_cons.1 hn).1 hm'
      rw [ih (List.nodup_cons.1 hn).2 hm']
      simp [hq]

/-- C4: in `ExhaustiveFeatureMatcher::Run` over `N` images with block size
`B > 0`: the anti-duplication predicate is exactly
`(idx1 > idx2 ∧ block_id1 ≤ block_id2) ∨ (idx1 < idx2 ∧ block_id1 < block_id2)`
with block ids taken modulo `B`; a pair `(a, b)` is emitted in the block
iteration with starts `(s1, s2)` iff both indices lie in that iteration's
ranges and the predicate holds; and over all block iterations, each unordered
pair `{i, j}` with `i < j < N` is emitted exactly once (in one orientation),
and every emitted pair is a non-self pair of indices below `N`. -/
theorem ExhaustiveFeatureMatcher_coverage (N B i j : Nat) (hB : 0 < B)
    (hij : i < j) (hjN : j < N) :
    (∀ a b, emitInBlock B a b = true ↔
        ((b < a ∧ a % B ≤ b % B) ∨ (a < b ∧ a % B < b % B)))
      ∧ (∀ s1 s2 a b, (a, b) ∈ blockPairs N B s1 s2 ↔
          (s1 ≤ a ∧ a < N ∧ a < s1 + B ∧ s2 ≤ b ∧ b < N ∧ b < s2 + B ∧
            emitInBlock B a b = true))
      ∧ (exhaustivePairs N B).count (i, j) + (exhaustivePairs N B).count (j, i) = 1
      ∧ (∀ p ∈ exhaustivePairs N B, p.1 < N ∧ p.2 < N ∧ p.1 ≠ p.2) := by
  refine ⟨emitInBlock_iff B, ?_, ?_, ?_⟩
  · intro s1 s2 a b
    rw [mem_blockPairs, mem_blockRange, mem_blockRange]
    tauto
  · by_cases hmod : i % B < j % B
    · have hmem : (i, j) ∈ exhaustivePairs N B := by
        rw [mem_exhaustivePairs hB, emitInBlock_iff]
        exact ⟨by omega, hjN, Or.inr ⟨hij, hmod⟩⟩
      have hnot : (j, i) ∉ exhaustivePairs N B := by
        rw [mem_exhaustivePairs hB, emitInBlock_iff]
        rintro ⟨-, -, (⟨h1, h2⟩ | ⟨h1, h2⟩)⟩ <;> omega
      rw [count_pair_of_nodup nodup_exhaustivePairs hmem,
        List.count_eq_zero.2 hnot]
    · have hmem : (j, i) ∈ exhaustivePairs N B := by
        rw [mem_exhaustivePairs hB, emitInBlock_iff]
        exact ⟨hjN, by omega, Or.inl ⟨hij, by omega⟩⟩
      have hnot : (i, j) ∉ exhaustivePairs N B := by
        rw [mem_exhaustivePairs hB, emitInBlock_iff]
        rintro ⟨-, -, (⟨h1, h2⟩ | ⟨h1, h2⟩)⟩ <;> omega
      rw [count_pair_of_nodup nodup_exhaustivePairs hmem,
        List.count_eq_zero.2 hnot]
  · intro p hp
    obtain ⟨a, b⟩ := p
    rw [mem_exhaustivePairs hB, emitInBlock_iff] at hp
    obtain ⟨ha, hb, he⟩ := hp
    refine ⟨ha, hb, ?_⟩
    simp only [ne_eq]
    intro hab
    rw [hab] at he
    omega

/-- C4 witness: `N = 3`, `B = 2`, unordered pair `{0, 2}`. -/
theorem ExhaustiveFeatureMatcher_coverage_witness :
    (∀ a b, emitInBlock 2 a b = true ↔
        ((b < a ∧ a % 2 ≤ b % 2) ∨ (a < b ∧ a % 2 < b % 2)))
      ∧ (∀ s1 s2 a b, (a, b) ∈ blockPairs 3 2 s1 s2 ↔
          (s1 ≤ a ∧ a < 3 ∧ a < s1 + 2 ∧ s2 ≤ b ∧ b < 3 ∧ b < s2 + 2 ∧
            emitInBlock 2 a b = true))
      ∧ (exhaustivePairs 3 2).count (0, 2) + (exhaustivePairs 3 2).count (2, 0) = 1
      ∧ (∀ p ∈ exhaustivePairs 3 2, p.1 < 3 ∧ p.2 < 3 ∧ p.1 ≠ p.2) :=
  ExhaustiveFeatureMatcher_coverage 3 2 0 2 (by decide) (by decide) (by decide)

/-! ## TransitiveFeatureMatcher

One iteration of `TransitiveFeatureMatcher::Run` (matching.cc:830-870).
The adjacency map built from the database's matched pairs is modelled as an
association list `adj : List (Nat × List Nat)` (one entry per image id, in the
map's traversal order); `lookup` models `adjacency.count(b) > 0` followed by
`adjacency.at(b)`. -/

/-- The endpoint pairs `(a, c)` of the length-2 walks `a → b → c`, in the
traversal order of the triple loop of matching.cc:835-839. -/
def walkPairs (adj : List (Nat × List Nat)) : List (Nat × Nat) :=
  adj.flatMap fun e =>
    e.2.flatMap fun b =>
      match adj.lookup b with
      | some l => l.map fun c => (e.1, c)
      | none => []

/-- The buffering fold of matching.cc:835-864: each walk endpoint pair whose
canonical pair-id is new this iteration is appended to the buffer and its id
added to the per-iteration set; whenever the buffer reaches `batchSize` it is
flushed (one call to `Match` inside a transaction) and the buffer — but not
the pair-id set — is reset. Returns (flushed batches, final buffer, set). -/
def transFold (batchSize : Nat) :
    List (Nat × Nat) → List (Nat × Nat) → List Nat →
      List (List (Nat × Nat)) × List (Nat × Nat) × List Nat
  | [], buf, seen => ([], buf, seen)
  | p :: ps, buf, seen =>
    if pairKey p ∈ seen then transFold batchSize ps buf seen
    else
      let buf' := buf ++ [p]
      if batchSize ≤ buf'.length then
        let r := transFold batchSize ps [] (pairKey p :: seen)
        (buf' :: r.1, r.2)
      else transFold batchSize ps buf' (pairKey p :: seen)

/-- The batches passed to `matcher_.Match` during one iteration of
`TransitiveFeatureMatcher::Run` over walk endpoint list `walks`: the
batch-size flushes followed by the final residual flush of
matching.cc:866-869 (performed unconditionally). -/
def transitiveBatches (batchSize : Nat) (walks : List (Nat × Nat)) :
    List (List (Nat × Nat)) :=
  (transFold batchSize walks [] []).1 ++ [(transFold batchSize walks [] []).2.1]

/-- Invariant of the buffering fold: flushed batches plus the residual carry
exactly the first occurrence of each canonical pair-id (the pair-id set is
never reset at a flush), every flushed batch has exactly `batchSize` pairs,
and the residual stays below `batchSize`. -/
theorem transFold_spec (batchSize : Nat) (hB : 0 < batchSize) :
    ∀ (walks buf : List (Nat × Nat)) (seen : List Nat),
      buf.length < batchSize →
      ((transFold batchSize walks buf seen).1.flatten ++
          (transFold batchSize walks buf seen).2.1 =
        buf ++ dedupByKey pairKey walks seen)
      ∧ (∀ b ∈ (transFold batchSize walks buf seen).1, b.length = batchSize)
      ∧ (transFold batchSize walks buf seen).2.1.length < batchSize := by
  intro walks
  induction walks with
  | nil =>
    intro buf seen hbuf
    simp [transFold, dedupByKey, hbuf]
  | cons p ps ih =>
    intro buf seen hbuf
    by_cases hseen : pairKey p ∈ seen
    · simp only [transFold, if_pos hseen, dedupByKey]
      exact ih buf seen hbuf
    · by_cases hflush : batchSize ≤ (buf ++ [p]).length
      · have hlen : (buf ++ [p]).length = batchSize := by
          simp only [List.length_append, List.length_singleton] at hflush ⊢
          omega
        simp only [transFold, if_neg hseen, if_pos hflush]
        obtain ⟨ih1, ih2, ih3⟩ := ih [] (pairKey p :: seen) (by simpa using hB)
        refine ⟨?_, ?_, ih3⟩
        · simp only [List.flatten_cons, List.append_assoc, ih1]
          simp [dedupByKey, hseen]
        · intro b hb
          rcases List.mem_cons.1 hb with rfl | hb'
          · exact hlen
          · exact ih2 b hb'
      · have hlt : (buf ++ [p]).length < batchSize := by omega
        simp only [transFold, if_neg hseen, if_neg hflush]
        obtain ⟨ih1, ih2, ih3⟩ := ih (buf ++ [p]) (pairKey p :: seen) hlt
        refine ⟨?_, ih2, ih3⟩
        rw [ih1]
        simp [dedupByKey, hseen]

/-- C8: in each iteration of `TransitiveFeatureMatcher::Run`, endpoint pairs
of length-2 walks over the current adjacency map are appended to the buffer
only if their canonical pair-id is new this iteration; the buffer is flushed
through `Match` exactly when it reaches `batch_size` (so every flushed batch
has exactly `batch_size` pairs) and is reset while the pair-id set is not (so
the concatenation of all batches is the walk list deduplicated by pair-id
across the whole iteration); and the residual buffer — always smaller than
`batch_size` — is flushed at iteration end. -/
theorem TransitiveFeatureMatcher_batching (batchSize : Nat)
    (adj : List (Nat × List Nat)) (hB : 0 < batchSize) :
    ((transitiveBatches batchSize (walkPairs adj)).flatten =
        dedupByKey pairKey (walkPairs adj) [])
      ∧ (∀ b ∈ (transFold batchSize (walkPairs adj) [] []).1,
          b.length = batchSize)
      ∧ (transFold batchSize (walkPairs adj) [] []).2.1.length < batchSize
      ∧ transitiveBatches batchSize (walkPairs adj) =
          (transFold batchSize (walkPairs adj) [] []).1 ++
            [(transFold batchSize (walkPairs adj) [] []).2.1] := by
  obtain ⟨h1, h2, h3⟩ :=
    transFold_spec batchSize hB (walkPairs adj) [] [] (by simpa using hB)
  refine ⟨?_, h2, h3, rfl⟩
  rw [transitiveBatches]
  rw [List.flatten_append]
  simpa using h1

/-- C8 witness: `batch_size = 1` and the two-image adjacency map
`{1 ↦ [2], 2 ↦ [1]}`, whose length-2 walks are `1 → 2 → 1` and `2 → 1 → 2`. -/
theorem TransitiveFeatureMatcher_batching_witness :
    ((transitiveBatches 1 (walkPairs [(1, [2]), (2, [1])])).flatten =
        dedupByKey pairKey (walkPairs [(1, [2]), (2, [1])]) [])
      ∧ (∀ b ∈ (transFold 1 (walkPairs [(1, [2]), (2, [1])]) [] []).1,
          b.length = 1)
      ∧ (transFold 1 (walkPairs [(1, [2]), (2, [1])]) [] []).2.1.length < 1
      ∧ transitiveBatches 1 (walkPairs [(1, [2]), (2, [1])]) =
          (transFold 1 (walkPairs [(1, [2]), (2, [1])]) [] []).1 ++
            [(transFold 1 (walkPairs [(1, [2]), (2, [1])]) [] []).2.1] :=
  TransitiveFeatureMatcher_batching 1 [(1, [2]), (2, [1])] (by decide)

/-! ## FeaturePairsFeatureMatcher

`FeaturePairsFeatureMatcher::Run` (matching.cc:995-1088). The input file is
modelled as a list of parsed records (pair line already split into the two
image names, with the record's feature-match lines); `resolve` models the
`image_name_to_image` index (names as `Nat` keys), `db` models
`Database::ExistsMatches` on canonical pair-ids. The function returns the
`WriteMatches` calls performed, in order. The crucial control flow: an
unresolved image name executes `break`, which leaves the outer
`while (getline)` loop — terminating the whole import — after printing the
`SKIP` message. -/

structure FeaturePairsRecord where
  name1 : Nat
  name2 : Nat
  featMatches : List (Nat × Nat)
  deriving DecidableEq, Repr

def FeaturePairsFeatureMatcher_Run (resolve : Nat → Option Nat)
    (db : Nat → Bool) :
    List FeaturePairsRecord → List (Nat × Nat × List (Nat × Nat))
  | [] => []
  | r :: rs =>
    match resolve r.name1 with
    | none => []
    | some id1 =>
      match resolve r.name2 with
      | none => []
      | some id2 =>
        if db (ImagePairToPairId id1 id2) then
          -- skip_pair: the record's feature lines are consumed but not written.
          FeaturePairsFeatureMatcher_Run resolve db rs
        else
          (id1, id2, r.featMatches) :: FeaturePairsFeatureMatcher_Run resolve db rs

/-- A name index resolving every name but `0`, and an empty match database,
for the C9 instances. -/
def exResolve : Nat → Option Nat := fun n => if n = 0 then none else some n

def exEmptyDb : Nat → Bool := fun _ => false

/-- C9 counterexample: with a first record naming the unknown image `0` and a
second, fully resolvable record, the run writes nothing — the unresolved name
aborts the entire import rather than only that record — although the second
record alone is written when processed; so processing does not continue with
subsequent records as the claim states. -/
theorem FeaturePairsFeatureMatcher_Run_counterexample :
    FeaturePairsFeatureMatcher_Run exResolve exEmptyDb
        [⟨0, 1, []⟩, ⟨1, 2, [(5, 6)]⟩] = []
      ∧ (1, 2, [(5, 6)]) ∉
          FeaturePairsFeatureMatcher_Run exResolve exEmptyDb
            [⟨0, 1, []⟩, ⟨1, 2, [(5, 6)]⟩]
      ∧ FeaturePairsFeatureMatcher_Run exResolve exEmptyDb
          [⟨1, 2, [(5, 6)]⟩] = [(1, 2, [(5, 6)])] := by decide

/-- C9 (amended): in `FeaturePairsFeatureMatcher::Run`, a record whose image
names cannot be resolved is reported and not written, and it aborts the
entire import: the `break` leaves the file-reading loop, so no subsequent
record of the file is processed or written either. -/
theorem FeaturePairsFeatureMatcher_Run_unresolved_aborts
    (resolve : Nat → Option Nat) (db : Nat → Bool) (r : FeaturePairsRecord)
    (rs : List FeaturePairsRecord)
    (h : resolve r.name1 = none ∨ resolve r.name2 = none) :
    FeaturePairsFeatureMatcher_Run resolve db (r :: rs) = [] := by
  rcases h with h1 | h2
  · simp [FeaturePairsFeatureMatcher_Run, h1]
  · cases hr1 : resolve r.name1 with
    | none => simp [FeaturePairsFeatureMatcher_Run, hr1]
    | some id1 => simp [FeaturePairsFeatureMatcher_Run, hr1, h2]

/-- C9 witness: the unresolvable first record of the counterexample instance,
followed by a resolvable record that is nevertheless not processed. -/
theorem FeaturePairsFeatureMatcher_Run_unresolved_aborts_witness :
    (exResolve (FeaturePairsRecord.mk 0 1 []).name1 = none ∨
        exResolve (FeaturePairsRecord.mk 0 1 []).name2 = none)
      ∧ FeaturePairsFeatureMatcher_Run exResolve exEmptyDb
          [⟨0, 1, []⟩, ⟨1, 2, [(5, 6)]⟩] = [] :=
  ⟨Or.inl (by decide),
    FeaturePairsFeatureMatcher_Run_unresolved_aborts exResolve exEmptyDb
      ⟨0, 1, []⟩ [⟨1, 2, [(5, 6)]⟩] (Or.inl (by decide))⟩
